import Mathlib

/-!
Verification of the PII redaction engine of `0x00-personal_data/filtered_logger.py`.

The Python core is:

```
def filter_datum(fields, redaction, message, separator):
    for f in fields:
        message = re.sub(f'{f}=.*?{separator}',
                         f'{f}={redaction}{separator}', message)
    return message
```

and the adapter:

```
class RedactingFormatter(logging.Formatter):
    def format(self, record):
        message = super().format(record)
        return filter_datum(self.fields, "XXX", message, " ")
```

We embed strings as `List Char`.  `re.sub` with the pattern
`f'{f}=.*?{separator}'` performs a left-to-right scan replacing
non-overlapping leftmost matches; the lazy `.*?` matches the shortest run
of non-newline characters such that the separator follows (Python's `.`
does not match `'\n'`).  Field names, the redaction token and the
separator are interpolated as literal text (none of the concrete field
names or separators used by this module contain regex metacharacters).

`scanToSep` models `.*?{separator}` from a fixed start: it consumes the
shortest run of non-newline characters after which `separator` is a
prefix, and returns the remainder after the separator.  `tryMatch` models
an attempted match of the whole pattern at the current position, and
`subField` models one `re.sub` pass (the body of the loop for one field).
`filter_datum` folds `subField` over the field list exactly as the loop
does.
-/

namespace FilteredLogger

/-- Characters of a string literal (Python `str` as `List Char`). -/
def strL (s : String) : List Char := s.data

/-- The fixed sensitive-field constant `PII_FIELDS` of the module. -/
def PII_FIELDS : List (List Char) :=
  [strL "name", strL "email", strL "phone", strL "ssn", strL "password"]

/-- Lazy scan for `.*?{separator}` starting at the current position:
consume the shortest run of non-newline characters after which
`sep` is a prefix, and return what follows the separator; `none` when a
newline or the end of the string is reached first. -/
def scanToSep (sep : List Char) : List Char → Option (List Char)
  | [] => if sep.isPrefixOf ([] : List Char) then some [] else none
  | c :: cs =>
    if sep.isPrefixOf (c :: cs) then some ((c :: cs).drop sep.length)
    else if c = '\n' then none
    else scanToSep sep cs

/-- Attempt to match the pattern `{f}=.*?{sep}` at the start of `msg`;
on success return the remainder of the string after the match. -/
def tryMatch (f sep msg : List Char) : Option (List Char) :=
  if (f ++ ['=']).isPrefixOf msg then scanToSep sep (msg.drop (f.length + 1))
  else none

/-- One `re.sub` pass for a single field, by fuel-indexed structural
recursion (the fuel is an upper bound on the length of the remaining
string, so the wrapper `subField` always has enough). -/
def subFieldAux (f red sep : List Char) : Nat → List Char → List Char
  | _, [] => []
  | 0, msg => msg
  | fuel + 1, c :: cs =>
    match tryMatch f sep (c :: cs) with
    | some rest => f ++ '=' :: (red ++ sep ++ subFieldAux f red sep fuel rest)
    | none => c :: subFieldAux f red sep fuel cs

/-- `re.sub(f'{f}=.*?{sep}', f'{f}={red}{sep}', msg)`: replace every
leftmost non-overlapping lazy match left to right. -/
def subField (f red sep msg : List Char) : List Char :=
  subFieldAux f red sep msg.length msg

/-- `filter_datum(fields, redaction, message, separator)`: the loop
`for f in fields: message = re.sub(...)`. -/
def filter_datum (fields : List (List Char)) (redaction message separator : List Char) :
    List Char :=
  fields.foldl (fun m f => subField f redaction separator m) message

/-- `RedactingFormatter.format`: the base `logging.Formatter` rendering is
an external collaborator; we take the rendered log line as the record's
denotation and apply `filter_datum` with the formatter's field list, the
constant token `"XXX"` and the constant separator `" "`. -/
def RedactingFormatter.format (fields : List (List Char)) (record : List Char) : List Char :=
  filter_datum fields (strL "XXX") record (strL " ")

/-! ### Basic facts about the scanner -/

theorem scanToSep_length {sep l r : List Char} (h : scanToSep sep l = some r) :
    r.length ≤ l.length := by
  induction l with
  | nil =>
    simp only [scanToSep] at h
    split at h
    · simp_all
    · simp_all
  | cons c cs ih =>
    simp only [scanToSep] at h
    split at h
    · cases h
      simp [List.length_drop]
    · split at h
      · simp_all
      · exact le_trans (ih h) (Nat.le_succ _)

theorem tryMatch_length {f sep rest : List Char} {c : Char} {cs : List Char}
    (h : tryMatch f sep (c :: cs) = some rest) : rest.length ≤ cs.length := by
  unfold tryMatch at h
  split at h
  · have := scanToSep_length h
    simp only [List.length_drop, List.length_cons] at this
    omega
  · simp_all

theorem subFieldAux_congr (f red sep : List Char) :
    ∀ n m msg, msg.length ≤ n → msg.length ≤ m →
      subFieldAux f red sep n msg = subFieldAux f red sep m msg := by
  intro n
  induction n with
  | zero =>
    intro m msg hn _
    have : msg = [] := List.length_eq_zero.mp (Nat.le_zero.mp hn)
    subst this
    cases m <;> rfl
  | succ n ih =>
    intro m msg hn hm
    match msg, m with
    | [], m' => cases m' <;> rfl
    | c :: cs, 0 => simp at hm
    | c :: cs, m + 1 =>
      cases h : tryMatch f sep (c :: cs) with
      | some rest =>
        have hr := tryMatch_length h
        simp only [List.length_cons] at hn hm
        simp only [subFieldAux, h]
        rw [ih m rest (by omega) (by omega)]
      | none =>
        simp only [List.length_cons] at hn hm
        simp only [subFieldAux, h]
        rw [ih m cs (by omega) (by omega)]

theorem subField_nil (f red sep : List Char) : subField f red sep [] = [] := rfl

theorem subField_keep {f sep : List Char} {c : Char} {cs : List Char} (red : List Char)
    (h : tryMatch f sep (c :: cs) = none) :
    subField f red sep (c :: cs) = c :: subField f red sep cs := by
  simp only [subField, List.length_cons, subFieldAux, h]

theorem subField_repl {f sep rest : List Char} {c : Char} {cs : List Char} (red : List Char)
    (h : tryMatch f sep (c :: cs) = some rest) :
    subField f red sep (c :: cs) = f ++ '=' :: (red ++ sep ++ subField f red sep rest) := by
  simp only [subField, List.length_cons, subFieldAux, h]
  rw [subFieldAux_congr f red sep cs.length rest.length rest (tryMatch_length h) le_rfl]

theorem single_isPrefixOf (s c : Char) (cs : List Char) :
    ([s].isPrefixOf (c :: cs)) = (s == c) := by
  simp [List.isPrefixOf]

/-- A successful scan decomposes the string as the shortest non-newline
value followed by the separator: no earlier position carries the
separator. -/
theorem scanToSep_some_decomp {sep l r : List Char} (h : scanToSep sep l = some r) :
    ∃ v, l = v ++ sep ++ r ∧ '\n' ∉ v ∧ ∀ j < v.length, ¬ sep <+: l.drop j := by
  induction l with
  | nil =>
    simp only [scanToSep] at h
    split at h
    · rename_i hp
      have hsep : sep = [] := List.prefix_nil.mp (List.isPrefixOf_iff_prefix.mp hp)
      cases h
      exact ⟨[], by simp [hsep], by simp, by simp⟩
    · exact absurd h (by simp)
  | cons c cs ih =>
    simp only [scanToSep] at h
    split at h
    · rename_i hp
      obtain ⟨t, ht⟩ := List.isPrefixOf_iff_prefix.mp hp
      cases h
      refine ⟨[], ?_, by simp, by simp⟩
      have : (c :: cs).drop sep.length = t := by rw [← ht, List.drop_left]
      rw [this]
      simpa using ht.symm
    · split at h
      · exact absurd h (by simp)
      · rename_i hnp hc
        obtain ⟨v', hsplit, hnl, hmin⟩ := ih h
        refine ⟨c :: v', by simpa using hsplit, ?_, ?_⟩
        · simp only [List.mem_cons, not_or]
          exact ⟨fun hh => hc hh.symm, hnl⟩
        · intro j hj
          match j with
          | 0 =>
            intro hpre
            exact hnp (List.isPrefixOf_iff_prefix.mpr (by simpa using hpre))
          | j' + 1 =>
            simp only [List.length_cons, Nat.add_lt_add_iff_right] at hj
            simpa using hmin j' hj

/-- A failed scan means every separator occurrence lies beyond a newline. -/
theorem scanToSep_none_split {sep l : List Char} (h : scanToSep sep l = none) :
    ∀ v r, l = v ++ sep ++ r → '\n' ∈ v := by
  induction l with
  | nil =>
    intro v r hvr
    have hv : v = [] ∧ sep = [] ∧ r = [] := by
      have := hvr.symm
      simp only [List.append_eq_nil, List.append_assoc] at this
      exact ⟨this.1, this.2.1, this.2.2⟩
    obtain ⟨hv1, hv2, _⟩ := hv
    subst hv2
    simp [scanToSep] at h
  | cons c cs ih =>
    simp only [scanToSep] at h
    split at h
    · exact absurd h (by simp)
    · split at h
      · rename_i hnp hc
        intro v r hvr
        match v, hvr with
        | [], hvr =>
          exact absurd (List.isPrefixOf_iff_prefix.mpr ⟨r, by simpa using hvr.symm⟩) hnp
        | c' :: v', hvr =>
          have hcc : c = c' ∧ cs = v' ++ sep ++ r := by
            simpa using hvr
          simp [← hcc.1, hc]
      · rename_i hnp hc
        intro v r hvr
        match v, hvr with
        | [], hvr =>
          exact absurd (List.isPrefixOf_iff_prefix.mpr ⟨r, by simpa using hvr.symm⟩) hnp
        | c' :: v', hvr =>
          have hcc : c = c' ∧ cs = v' ++ sep ++ r := by
            simpa using hvr
          exact List.mem_cons_of_mem _ (ih h v' r hcc.2)

/-! ### Single-character separators -/

theorem scan_cons_self (s : Char) (t : List Char) : scanToSep [s] (s :: t) = some t := by
  simp [scanToSep, single_isPrefixOf]

theorem scan_skip {s : Char} {v : List Char} (t : List Char) (hs : s ∉ v) (hn : '\n' ∉ v) :
    scanToSep [s] (v ++ t) = scanToSep [s] t := by
  induction v with
  | nil => simp
  | cons c v' ih =>
    simp only [List.mem_cons, not_or] at hs hn
    simp only [List.cons_append, scanToSep, single_isPrefixOf]
    rw [if_neg (by simpa using hs.1), if_neg (fun hh => hn.1 hh.symm)]
    exact ih hs.2 hn.2

theorem scan_value {s : Char} {v : List Char} (t : List Char) (hs : s ∉ v) (hn : '\n' ∉ v) :
    scanToSep [s] (v ++ s :: t) = some t := by
  rw [scan_skip _ hs hn, scan_cons_self]

theorem scan_none_of_no_s {s : Char} {l : List Char} (h : s ∉ l) : scanToSep [s] l = none := by
  induction l with
  | nil => simp [scanToSep]
  | cons c cs ih =>
    simp only [List.mem_cons, not_or] at h
    simp only [scanToSep, single_isPrefixOf]
    rw [if_neg (by simpa using h.1)]
    split
    · rfl
    · exact ih h.2

theorem scan_fail_newline {s : Char} {a : List Char} (z : List Char) (hs : s ∉ a)
    (hne : s ≠ '\n') : scanToSep [s] (a ++ '\n' :: z) = none := by
  induction a with
  | nil => simp [scanToSep, single_isPrefixOf, hne]
  | cons c a' ih =>
    simp only [List.mem_cons, not_or] at hs
    simp only [List.cons_append, scanToSep, single_isPrefixOf]
    rw [if_neg (by simpa using hs.1)]
    split
    · rfl
    · exact ih hs.2

/-- If scanning `a ++ b` fails while scanning `b` alone succeeds, the
failure happened inside `a`: a newline precedes every separator there. -/
theorem scan_none_split {s : Char} {a b x : List Char}
    (h : scanToSep [s] (a ++ b) = none) (hb : scanToSep [s] b = some x) :
    ∃ a₁ a₂, a = a₁ ++ '\n' :: a₂ ∧ s ∉ a₁ := by
  induction a with
  | nil =>
    rw [List.nil_append, hb] at h
    cases h
  | cons c a' ih =>
    simp only [List.cons_append, scanToSep, single_isPrefixOf] at h
    split at h
    · cases h
    · split at h
      · rename_i hnp hc
        exact ⟨[], a', by simp [hc], by simp⟩
      · rename_i hnp hc
        obtain ⟨a₁, a₂, ha, hs⟩ := ih h
        refine ⟨c :: a₁, a₂, by simp [ha], ?_⟩
        simp only [List.mem_cons, not_or]
        exact ⟨fun hh => hnp (by simp [hh]), hs⟩

/-- Single-character scan success: the value is exactly the run up to the
first separator, which contains neither the separator nor a newline. -/
theorem scan_single_some {s : Char} {l r : List Char} (h : scanToSep [s] l = some r) :
    ∃ v, l = v ++ s :: r ∧ s ∉ v ∧ '\n' ∉ v := by
  induction l with
  | nil => simp [scanToSep] at h
  | cons c cs ih =>
    simp only [scanToSep, single_isPrefixOf] at h
    split at h
    · rename_i hp
      cases h
      exact ⟨[], by simp [show s = c by simpa using hp], by simp, by simp⟩
    · split at h
      · cases h
      · rename_i hp hc
        obtain ⟨v', hsplit, hsv, hnv⟩ := ih h
        refine ⟨c :: v', by simp [hsplit], ?_, ?_⟩
        · simp only [List.mem_cons, not_or]
          exact ⟨fun hh => hp (by simp [hh]), hsv⟩
        · simp only [List.mem_cons, not_or]
          exact ⟨fun hh => hc hh.symm, hnv⟩

/-- The scan, appended with separator-free garbage, is unchanged modulo
appending the garbage to the returned remainder. -/
theorem scan_append_none {s : Char} {t : List Char} (w : List Char) (hc : s ∉ t) :
    scanToSep [s] (w ++ t) = Option.map (fun r => r ++ t) (scanToSep [s] w) := by
  induction w with
  | nil =>
    rw [List.nil_append, scan_none_of_no_s hc]
    simp [scanToSep]
  | cons c w' ih =>
    by_cases hp : s = c
    · subst hp
      rw [List.cons_append, scan_cons_self, scan_cons_self]
      rfl
    · simp only [List.cons_append, scanToSep, single_isPrefixOf,
        if_neg (show ¬((s == c) = true) by simpa using hp)]
      by_cases hnl : c = '\n'
      · simp [hnl]
      · simp only [if_neg hnl]
        exact ih

/-! ### Facts about `tryMatch` -/

theorem tryMatch_some_decomp {f sep msg rest : List Char} (h : tryMatch f sep msg = some rest) :
    ∃ w, msg = f ++ '=' :: w ∧ scanToSep sep w = some rest := by
  unfold tryMatch at h
  split at h
  · rename_i hp
    obtain ⟨w, hw⟩ := List.isPrefixOf_iff_prefix.mp hp
    refine ⟨w, by rw [← hw]; simp, ?_⟩
    have hd : msg.drop (f.length + 1) = w := by
      rw [← hw, show f.length + 1 = (f ++ ['=']).length by simp, List.drop_left]
    rwa [hd] at h
  · cases h

theorem tryMatch_of_split {f sep w rest : List Char} (h : scanToSep sep w = some rest) :
    tryMatch f sep (f ++ '=' :: w) = some rest := by
  unfold tryMatch
  rw [List.append_cons f '=' w]
  rw [if_pos (List.isPrefixOf_iff_prefix.mpr (List.prefix_append _ _))]
  rw [show f.length + 1 = (f ++ ['=']).length by simp, List.drop_left]
  exact h

theorem tryMatch_none_of_head {cf : Char} {f₁ sep : List Char} {c : Char} {cs : List Char}
    (hc : c ≠ cf) : tryMatch (cf :: f₁) sep (c :: cs) = none := by
  unfold tryMatch
  rw [if_neg]
  intro hp
  have := List.isPrefixOf_iff_prefix.mp hp
  rw [List.cons_append, List.cons_prefix_cons] at this
  exact hc this.1.symm

/-- `tryMatch` never succeeds when the whole string lacks the separator. -/
theorem tryMatch_none_of_no_sep {fld : List Char} {s : Char} {msg : List Char} (h : s ∉ msg) :
    tryMatch fld [s] msg = none := by
  unfold tryMatch
  split
  · exact scan_none_of_no_s fun hm => h (List.mem_of_mem_drop hm)
  · rfl

/-- Appending separator-free garbage only appends it to the remainder of
the match (or leaves a failure a failure). -/
theorem tryMatch_append {fld : List Char} {s : Char} {t : List Char} (w : List Char)
    (hc : s ∉ t) :
    tryMatch fld [s] (w ++ t) = Option.map (fun r => r ++ t) (tryMatch fld [s] w) := by
  unfold tryMatch
  by_cases hp : (fld ++ ['=']).isPrefixOf w
  · have hp' : (fld ++ ['=']).isPrefixOf (w ++ t) :=
      List.isPrefixOf_iff_prefix.mpr
        ((List.isPrefixOf_iff_prefix.mp hp).trans (List.prefix_append w t))
    rw [if_pos hp, if_pos hp']
    have hlen : fld.length + 1 ≤ w.length := by
      have := (List.isPrefixOf_iff_prefix.mp hp).length_le
      simpa using this
    have hdrop : (w ++ t).drop (fld.length + 1) = w.drop (fld.length + 1) ++ t := by
      rw [List.drop_append_eq_append_drop, show fld.length + 1 - w.length = 0 by omega,
        List.drop_zero]
    rw [hdrop, scan_append_none _ hc]
  · rw [if_neg hp]
    by_cases hp2 : (fld ++ ['=']).isPrefixOf (w ++ t)
    · rw [if_pos hp2]
      have hlen : w.length < fld.length + 1 := by
        by_contra hle
        push_neg at hle
        exact hp (List.isPrefixOf_iff_prefix.mpr
          (List.prefix_of_prefix_length_le (List.isPrefixOf_iff_prefix.mp hp2)
            (List.prefix_append w t) (by simpa using hle)))
      have hdrop : (w ++ t).drop (fld.length + 1) = t.drop (fld.length + 1 - w.length) := by
        rw [List.drop_append_eq_append_drop, List.drop_eq_nil_of_le (by omega),
          List.nil_append]
      rw [hdrop, scan_none_of_no_s fun hm => hc (List.mem_of_mem_drop hm)]
      rfl
    · rw [if_neg hp2]
      rfl

/-! ### Structural facts about a single substitution pass -/

theorem filter_datum_nil_cons {fields : List (List Char)} {f red msg sep : List Char} :
    filter_datum (f :: fields) red msg sep = filter_datum fields red (subField f red sep msg) sep :=
  rfl

/-- The pass walks unchanged over a block in which the field's leading
character never occurs. -/
theorem subField_skip_head {cf : Char} {f₁ : List Char} (red sep : List Char) {u : List Char}
    (t : List Char) (hu : cf ∉ u) :
    subField (cf :: f₁) red sep (u ++ t) = u ++ subField (cf :: f₁) red sep t := by
  induction u with
  | nil => simp
  | cons c u' ih =>
    simp only [List.mem_cons, not_or] at hu
    rw [List.cons_append, subField_keep red (tryMatch_none_of_head fun h => hu.1 h.symm),
      ih hu.2]
    rfl

/-- The pass walks unchanged over any block in which no match starts. -/
theorem subField_skip {g red sep : List Char} {u : List Char} (t : List Char)
    (hno : ∀ i, i < u.length → tryMatch g sep (u.drop i ++ t) = none) :
    subField g red sep (u ++ t) = u ++ subField g red sep t := by
  induction u with
  | nil => simp
  | cons c u' ih =>
    have h0 := hno 0 (by simp)
    rw [List.drop_zero, List.cons_append] at h0
    rw [List.cons_append, subField_keep red h0]
    rw [ih fun i hi => by
      have := hno (i + 1) (by simpa using Nat.succ_lt_succ hi)
      rwa [List.drop_succ_cons] at this]
    rfl

/-- A separator-free string is left unchanged by the pass. -/
theorem subField_id_of_no_sep {s : Char} {t : List Char} (fld red : List Char) (h : s ∉ t) :
    subField fld red [s] t = t := by
  induction t with
  | nil => rfl
  | cons c cs ih =>
    simp only [List.mem_cons, not_or] at h
    rw [subField_keep red (tryMatch_none_of_no_sep (show s ∉ c :: cs by simp [h.1, h.2])),
      ih h.2]

/-- One pass over `u ++ t` with a separator-free tail `t` acts on `u`
alone and carries `t` through verbatim. -/
theorem subField_append {s : Char} {t : List Char} (fld red : List Char) (hc : s ∉ t) :
    ∀ u, subField fld red [s] (u ++ t) = subField fld red [s] u ++ t := by
  have main : ∀ n u, u.length ≤ n →
      subField fld red [s] (u ++ t) = subField fld red [s] u ++ t := by
    intro n
    induction n with
    | zero =>
      intro u hu
      have : u = [] := List.length_eq_zero.mp (Nat.le_zero.mp hu)
      subst this
      rw [List.nil_append, subField_id_of_no_sep fld red hc, subField_nil, List.nil_append]
    | succ n ih =>
      intro u hu
      match u with
      | [] => rw [List.nil_append, subField_id_of_no_sep fld red hc, subField_nil, List.nil_append]
      | a :: u' =>
        simp only [List.length_cons] at hu
        rw [List.cons_append]
        cases h : tryMatch fld [s] (a :: u') with
        | none =>
          have hT := @tryMatch_append fld s t (a :: u') hc
          rw [h] at hT
          rw [List.cons_append] at hT
          rw [subField_keep red (by simpa using hT), subField_keep red h,
            ih u' (by omega)]
          rfl
        | some rest₀ =>
          have hT := @tryMatch_append fld s t (a :: u') hc
          rw [h] at hT
          rw [List.cons_append] at hT
          rw [subField_repl red (by simpa using hT), subField_repl red h,
            ih rest₀ (le_trans (tryMatch_length h) (by omega))]
          simp
  intro u
  exact main u.length u le_rfl

/-- `filter_datum` with a single-character separator carries any
separator-free tail of the message through verbatim: text after the last
separator — in particular a final `field=value` with no trailing
separator — is never redacted. -/
theorem filter_datum_append {s : Char} {t : List Char} (red : List Char) (hc : s ∉ t) :
    ∀ (fields : List (List Char)) (u : List Char),
      filter_datum fields red (u ++ t) [s] = filter_datum fields red u [s] ++ t := by
  intro fields
  induction fields with
  | nil => intro u; rfl
  | cons f fs ih =>
    intro u
    rw [filter_datum_nil_cons, filter_datum_nil_cons, subField_append f red hc u, ih]

/-! ### Declarative specification of a substitution pass -/

/-- Declarative, scanner-independent specification of one substitution
pass, following the spec's words: scanning left to right, either no match
of `field=<run-of-non-newline-chars><separator>` starts at the current
character (which is then kept unaltered), or the match whose value is the
shortest such run is replaced by `field=<redaction><separator>` and the
scan resumes after the replaced span, so matches are non-overlapping.
The minimality hypothesis `hmin` states that the value is the shortest
one among all ways to split the remainder; in particular (for a non-empty
separator) the value can never contain the separator, so a match never
extends across a separator boundary. -/
inductive RedactRel (f red sep : List Char) : List Char → List Char → Prop where
  | nil : RedactRel f red sep [] []
  | keep (c : Char) (cs out : List Char)
      (hnom : ¬ ∃ v rest, c :: cs = f ++ '=' :: (v ++ sep ++ rest) ∧ '\n' ∉ v)
      (htail : RedactRel f red sep cs out) : RedactRel f red sep (c :: cs) (c :: out)
  | repl (v rest out : List Char) (hnl : '\n' ∉ v)
      (hmin : ∀ v' rest', v' ++ sep ++ rest' = v ++ sep ++ rest → '\n' ∉ v' →
        v.length ≤ v'.length)
      (htail : RedactRel f red sep rest out) :
      RedactRel f red sep (f ++ '=' :: (v ++ sep ++ rest)) (f ++ '=' :: (red ++ sep ++ out))

/-- The scanner satisfies the declarative specification. -/
theorem subField_redactRel (f red sep : List Char) :
    ∀ msg, RedactRel f red sep msg (subField f red sep msg) := by
  have main : ∀ n msg, msg.length ≤ n → RedactRel f red sep msg (subField f red sep msg) := by
    intro n
    induction n with
    | zero =>
      intro msg h
      have : msg = [] := List.length_eq_zero.mp (Nat.le_zero.mp h)
      subst this
      rw [subField_nil]
      exact .nil
    | succ n ih =>
      intro msg hm
      match msg with
      | [] =>
        rw [subField_nil]
        exact .nil
      | c :: cs =>
        simp only [List.length_cons] at hm
        cases h : tryMatch f sep (c :: cs) with
        | none =>
          rw [subField_keep red h]
          refine .keep c cs _ ?_ (ih cs (by omega))
          rintro ⟨v, rest, hsplit, hnl⟩
          unfold tryMatch at h
          split at h
          · have hd : (c :: cs).drop (f.length + 1) = v ++ sep ++ rest := by
              rw [hsplit, List.append_cons f '=' _,
                show f.length + 1 = (f ++ ['=']).length by simp, List.drop_left]
            rw [hd] at h
            exact hnl (scanToSep_none_split h v rest rfl)
          · rename_i hnp
            exact hnp (List.isPrefixOf_iff_prefix.mpr
              ⟨v ++ sep ++ rest, by rw [hsplit]; simp⟩)
        | some rest =>
          obtain ⟨w, hw, hscan⟩ := tryMatch_some_decomp h
          obtain ⟨v, hsplit, hnl, hminpos⟩ := scanToSep_some_decomp hscan
          rw [subField_repl red h, hw, hsplit]
          refine .repl v rest _ hnl ?_ (ih rest (le_trans (tryMatch_length h) (by omega)))
          intro v' rest' heq hnl'
          by_contra hlt
          push_neg at hlt
          refine hminpos v'.length (by omega) ?_
          have : w.drop v'.length = sep ++ rest' := by
            rw [hsplit, ← heq, List.append_assoc, List.drop_left]
          rw [this]
          exact List.prefix_append sep rest'
  intro msg
  exact main msg.length msg le_rfl

/-- Sequential composition of declarative passes, one per field in
order: the `for f in fields` loop of `filter_datum`. -/
inductive SeqRedact (red sep : List Char) : List (List Char) → List Char → List Char → Prop where
  | nil (msg : List Char) : SeqRedact red sep [] msg msg
  | cons (f : List Char) (fs : List (List Char)) (msg mid out : List Char)
      (hstep : RedactRel f red sep msg mid) (htail : SeqRedact red sep fs mid out) :
      SeqRedact red sep (f :: fs) msg out

/-! ### Order independence machinery -/

/-- Fuel-indexed simultaneous two-field scanner: at each position first
try a match for `f`, then for `g`; used as the common reduct of the two
orders of application in the commutation proof. -/
def sim2Aux (f g red sep : List Char) : Nat → List Char → List Char
  | _, [] => []
  | 0, msg => msg
  | fuel + 1, c :: cs =>
    match tryMatch f sep (c :: cs) with
    | some rest => f ++ '=' :: (red ++ sep ++ sim2Aux f g red sep fuel rest)
    | none =>
      match tryMatch g sep (c :: cs) with
      | some rest => g ++ '=' :: (red ++ sep ++ sim2Aux f g red sep fuel rest)
      | none => c :: sim2Aux f g red sep fuel cs

/-- Simultaneous two-field redaction. -/
def sim2 (f g red sep msg : List Char) : List Char := sim2Aux f g red sep msg.length msg

theorem sim2Aux_congr (f g red sep : List Char) :
    ∀ n m msg, msg.length ≤ n → msg.length ≤ m →
      sim2Aux f g red sep n msg = sim2Aux f g red sep m msg := by
  intro n
  induction n with
  | zero =>
    intro m msg hn _
    have : msg = [] := List.length_eq_zero.mp (Nat.le_zero.mp hn)
    subst this
    cases m <;> rfl
  | succ n ih =>
    intro m msg hn hm
    match msg, m with
    | [], m' => cases m' <;> rfl
    | c :: cs, 0 => simp at hm
    | c :: cs, m + 1 =>
      cases h : tryMatch f sep (c :: cs) with
      | some rest =>
        have hr := tryMatch_length h
        simp only [List.length_cons] at hn hm
        simp only [sim2Aux, h]
        rw [ih m rest (by omega) (by omega)]
      | none =>
        cases h2 : tryMatch g sep (c :: cs) with
        | some rest =>
          have hr := tryMatch_length h2
          simp only [List.length_cons] at hn hm
          simp only [sim2Aux, h, h2]
          rw [ih m rest (by omega) (by omega)]
        | none =>
          simp only [List.length_cons] at hn hm
          simp only [sim2Aux, h, h2]
          rw [ih m cs (by omega) (by omega)]

theorem sim2_nil (f g red sep : List Char) : sim2 f g red sep [] = [] := rfl

theorem sim2_f {f sep rest : List Char} {c : Char} {cs : List Char} (g red : List Char)
    (h : tryMatch f sep (c :: cs) = some rest) :
    sim2 f g red sep (c :: cs) = f ++ '=' :: (red ++ sep ++ sim2 f g red sep rest) := by
  simp only [sim2, List.length_cons, sim2Aux, h]
  rw [sim2Aux_congr f g red sep cs.length rest.length rest (tryMatch_length h) le_rfl]

theorem sim2_g {f g sep rest : List Char} {c : Char} {cs : List Char} (red : List Char)
    (h : tryMatch f sep (c :: cs) = none) (h2 : tryMatch g sep (c :: cs) = some rest) :
    sim2 f g red sep (c :: cs) = g ++ '=' :: (red ++ sep ++ sim2 f g red sep rest) := by
  simp only [sim2, List.length_cons, sim2Aux, h, h2]
  rw [sim2Aux_congr f g red sep cs.length rest.length rest (tryMatch_length h2) le_rfl]

theorem sim2_keep {f g sep : List Char} {c : Char} {cs : List Char} (red : List Char)
    (h : tryMatch f sep (c :: cs) = none) (h2 : tryMatch g sep (c :: cs) = none) :
    sim2 f g red sep (c :: cs) = c :: sim2 f g red sep cs := by
  simp only [sim2, List.length_cons, sim2Aux, h, h2]

/-- Matches for two fields with distinct leading characters are mutually
exclusive at any one position. -/
theorem tryMatch_excl {cf cg : Char} {f₁ g₁ sep msg rest : List Char} (hne : cg ≠ cf)
    (h : tryMatch (cf :: f₁) sep msg = some rest) :
    tryMatch (cg :: g₁) sep msg = none := by
  obtain ⟨w, hw, _⟩ := tryMatch_some_decomp h
  rw [hw]
  show tryMatch (cg :: g₁) sep (cf :: (f₁ ++ '=' :: w)) = none
  exact tryMatch_none_of_head fun hh => hne hh.symm

/-- The simultaneous scanner is symmetric in its two fields when their
leading characters differ. -/
theorem sim2_comm {cf cg : Char} (f₁ g₁ red sep : List Char) (hne : cg ≠ cf) :
    ∀ msg, sim2 (cf :: f₁) (cg :: g₁) red sep msg
      = sim2 (cg :: g₁) (cf :: f₁) red sep msg := by
  have main : ∀ n msg, msg.length ≤ n →
      sim2 (cf :: f₁) (cg :: g₁) red sep msg = sim2 (cg :: g₁) (cf :: f₁) red sep msg := by
    intro n
    induction n with
    | zero =>
      intro msg hn
      have : msg = [] := List.length_eq_zero.mp (Nat.le_zero.mp hn)
      subst this
      rfl
    | succ n ih =>
      intro msg hn
      match msg with
      | [] => rfl
      | c :: cs =>
        simp only [List.length_cons] at hn
        cases hF : tryMatch (cf :: f₁) sep (c :: cs) with
        | some restF =>
          have hG := @tryMatch_excl cf cg f₁ g₁ sep (c :: cs) restF hne hF
          rw [sim2_f _ red hF, sim2_g red hG hF,
            ih restF (le_trans (tryMatch_length hF) (by omega))]
        | none =>
          cases hG : tryMatch (cg :: g₁) sep (c :: cs) with
          | some restG =>
            rw [sim2_g red hF hG, sim2_f _ red hG,
              ih restG (le_trans (tryMatch_length hG) (by omega))]
          | none =>
            rw [sim2_keep red hF hG, sim2_keep red hG hF, ih cs (by omega)]
  intro msg
  exact main msg.length msg le_rfl

/-- A prefix of a concatenation is a prefix of the first part or extends
it. -/
theorem prefix_concat_cases {a b c : List Char} (h : a <+: b ++ c) :
    a <+: b ∨ ∃ a₂, a = b ++ a₂ ∧ a₂ <+: c := by
  rcases le_or_lt a.length b.length with hle | hlt
  · exact Or.inl (List.prefix_of_prefix_length_le h (List.prefix_append b c) hle)
  · right
    have hba : b <+: a :=
      List.prefix_of_prefix_length_le (List.prefix_append b c) h (le_of_lt hlt)
    obtain ⟨a₂, ha₂⟩ := hba
    refine ⟨a₂, ha₂.symm, ?_⟩
    obtain ⟨t, ht⟩ := h
    rw [← ha₂, List.append_assoc] at ht
    exact ⟨t, List.append_cancel_left ht⟩

/-- First-match characterization of a pass: either no match starts
anywhere and the pass is the identity, or the string splits at the first
match, before which the pass keeps every character. -/
theorem subField_first_match (gf red sep : List Char) :
    ∀ msg, (subField gf red sep msg = msg ∧
        ∀ i, i < msg.length → tryMatch gf sep (msg.drop i) = none) ∨
      ∃ u w rest, msg = u ++ (gf ++ '=' :: w) ∧ scanToSep sep w = some rest ∧
        (∀ i, i < u.length → tryMatch gf sep (msg.drop i) = none) ∧
        subField gf red sep msg = u ++ (gf ++ '=' :: (red ++ sep ++ subField gf red sep rest)) := by
  have main : ∀ n msg, msg.length ≤ n → (subField gf red sep msg = msg ∧
        ∀ i, i < msg.length → tryMatch gf sep (msg.drop i) = none) ∨
      ∃ u w rest, msg = u ++ (gf ++ '=' :: w) ∧ scanToSep sep w = some rest ∧
        (∀ i, i < u.length → tryMatch gf sep (msg.drop i) = none) ∧
        subField gf red sep msg
          = u ++ (gf ++ '=' :: (red ++ sep ++ subField gf red sep rest)) := by
    intro n
    induction n with
    | zero =>
      intro msg hn
      have : msg = [] := List.length_eq_zero.mp (Nat.le_zero.mp hn)
      subst this
      exact Or.inl ⟨subField_nil _ _ _, by simp⟩
    | succ n ih =>
      intro msg hn
      match msg with
      | [] => exact Or.inl ⟨subField_nil _ _ _, by simp⟩
      | c :: cs =>
        simp only [List.length_cons] at hn
        cases h : tryMatch gf sep (c :: cs) with
        | some rest =>
          obtain ⟨w, hw, hscan⟩ := tryMatch_some_decomp h
          refine Or.inr ⟨[], w, rest, by simpa using hw, hscan, by simp, ?_⟩
          rw [subField_repl red h]
          simp
        | none =>
          rcases ih cs (by omega) with ⟨hid, hno⟩ | ⟨u, w, rest, hsplit, hscan, hfirst, hout⟩
          · refine Or.inl ⟨by rw [subField_keep red h, hid], ?_⟩
            intro i hi
            match i with
            | 0 => exact h
            | i + 1 =>
              rw [List.drop_succ_cons]
              exact hno i (by simpa using hi)
          · refine Or.inr ⟨c :: u, w, rest, by simp [hsplit], hscan, ?_, ?_⟩
            · intro i hi
              match i with
              | 0 => exact h
              | i + 1 =>
                rw [List.drop_succ_cons]
                exact hfirst i (by simpa using hi)
            · rw [subField_keep red h, hout]
              rfl
  intro msg
  exact main msg.length msg le_rfl

/-- A failed match for the field `cf :: f₁` at a position stays failed
after the pass for the field `cg :: g₁`, provided `cg` cannot occur in
the pattern or replacement of the first field and the separator is
disjoint from the second field's pattern: the scan fails by reaching a
newline (or the string's end) before any separator, and the pass cannot
remove that obstruction. -/
theorem tryMatch_none_preserved {cf cg : Char} {f₁ g₁ red : List Char} {s : Char}
    (Hcg : cg ∉ (cf :: f₁) ++ '=' :: (red ++ [s]))
    (Hsg : s ∉ cg :: g₁) (Hse : s ≠ '=') (Hsn : s ≠ '\n') (Hng : '\n' ∉ cg :: g₁)
    {msg : List Char} (h : tryMatch (cf :: f₁) [s] msg = none) :
    tryMatch (cf :: f₁) [s] (subField (cg :: g₁) red [s] msg) = none := by
  rcases subField_first_match (cg :: g₁) red [s] msg with
    ⟨hid, _⟩ | ⟨u, w, rest, hsplit, hscan, _, hout⟩
  · rw [hid]
    exact h
  · rw [hout]
    by_cases hp : ((cf :: f₁) ++ ['=']).isPrefixOf
        (u ++ ((cg :: g₁) ++ '=' :: (red ++ [s] ++ subField (cg :: g₁) red [s] rest)))
    · have hcgfe : cg ∉ (cf :: f₁) ++ ['='] := by
        intro hmem
        apply Hcg
        rcases List.mem_append.mp hmem with hmem | hmem
        · exact List.mem_append.mpr (Or.inl hmem)
        · simp only [List.mem_singleton] at hmem
          subst hmem
          exact List.mem_append.mpr (Or.inr (List.mem_cons_self _ _))
      have hfeu : ((cf :: f₁) ++ ['=']) <+: u := by
        rcases prefix_concat_cases (List.isPrefixOf_iff_prefix.mp hp) with hfe | ⟨a₂, ha₂, ha₂p⟩
        · exact hfe
        · match a₂, ha₂, ha₂p with
          | [], ha₂, _ =>
            refine ⟨[], ?_⟩
            have := ha₂.symm
            simp only [List.append_nil] at this
            simpa using this.symm
          | x :: t, ha₂, hxp =>
            rw [List.cons_append, List.cons_prefix_cons] at hxp
            exact absurd (by
              rw [ha₂, hxp.1]
              exact List.mem_append.mpr (Or.inr (List.mem_cons_self _ _))) hcgfe
      obtain ⟨u₂, hu₂⟩ := hfeu
      have hfemsg : ((cf :: f₁) ++ ['=']).isPrefixOf msg := by
        apply List.isPrefixOf_iff_prefix.mpr
        rw [hsplit, ← hu₂, List.append_assoc]
        exact List.prefix_append _ _
      unfold tryMatch at h
      rw [if_pos hfemsg] at h
      have hlen : (cf :: f₁).length + 1 = ((cf :: f₁) ++ ['=']).length := by simp
      have hdropmsg : msg.drop ((cf :: f₁).length + 1) = u₂ ++ ((cg :: g₁) ++ '=' :: w) := by
        rw [hsplit, ← hu₂, List.append_assoc, hlen, List.drop_left]
      rw [hdropmsg] at h
      obtain ⟨v₂, hw, hsv₂, hnv₂⟩ := scan_single_some hscan
      have hscanT : scanToSep [s] ((cg :: g₁) ++ '=' :: w) = some rest := by
        rw [hw, show (cg :: g₁) ++ '=' :: (v₂ ++ s :: rest)
            = ((cg :: g₁) ++ ['='] ++ v₂) ++ s :: rest by simp]
        apply scan_value
        · simp only [List.mem_append, List.mem_singleton]
          rintro ((hmem | hmem) | hmem)
          · exact Hsg hmem
          · exact Hse hmem
          · exact hsv₂ hmem
        · simp only [List.mem_append, List.mem_singleton]
          rintro ((hmem | hmem) | hmem)
          · exact Hng hmem
          · exact absurd hmem (by decide)
          · exact hnv₂ hmem
      obtain ⟨a₁, a₂', hu₂split, hsa₁⟩ := scan_none_split h hscanT
      unfold tryMatch
      rw [if_pos hp]
      have hdropout :
          (u ++ ((cg :: g₁) ++ '=' :: (red ++ [s] ++ subField (cg :: g₁) red [s] rest))).drop
              ((cf :: f₁).length + 1)
            = u₂ ++ ((cg :: g₁) ++ '=' :: (red ++ [s] ++ subField (cg :: g₁) red [s] rest)) := by
        rw [← hu₂, List.append_assoc, hlen, List.drop_left]
      rw [hdropout, hu₂split, List.append_assoc]
      exact scan_fail_newline _ hsa₁ Hsn
    · unfold tryMatch
      rw [if_neg hp]

theorem notMem_parts {x : Char} {fld red : List Char} {s : Char}
    (h : x ∉ fld ++ '=' :: (red ++ [s])) :
    x ∉ fld ∧ x ≠ '=' ∧ x ∉ red ∧ x ≠ s := by
  simp only [List.mem_append, List.mem_cons, List.mem_singleton, not_or] at h
  exact ⟨h.1, h.2.1, h.2.2.1, h.2.2.2.1⟩

/-- A prefix of `u ++ y :: t` avoiding the character `y` is a prefix of
`u`. -/
theorem prefix_stop {pat u : List Char} {y : Char} {t : List Char}
    (h : pat <+: u ++ y :: t) (hy : y ∉ pat) : pat <+: u := by
  rcases prefix_concat_cases h with hh | ⟨a₂, ha₂, ha₂p⟩
  · exact hh
  · match a₂, ha₂, ha₂p with
    | [], ha₂, _ =>
      refine ⟨[], ?_⟩
      rw [List.append_nil] at ha₂ ⊢
      exact ha₂
    | x :: a₃, ha₂, hxp =>
      rw [List.cons_prefix_cons] at hxp
      refine absurd ?_ hy
      rw [ha₂, ← hxp.1]
      exact List.mem_append.mpr (Or.inr (List.mem_cons_self _ _))

/-- Append-headed form of the replace equation. -/
theorem subField_repl' {f sep w rest : List Char} (red : List Char)
    (h : scanToSep sep w = some rest) :
    subField f red sep (f ++ '=' :: w) = f ++ '=' :: (red ++ sep ++ subField f red sep rest) := by
  cases f with
  | nil => exact subField_repl red (tryMatch_of_split h)
  | cons a f' => exact subField_repl red (tryMatch_of_split h)

/-- Core commutation: the pass for `cg :: g₁` followed by the pass for
`cf :: f₁` computes the simultaneous two-field scan, provided the
leading character of each field occurs in neither the other field's
pattern nor the replacement text, and the separator is a single
non-newline character foreign to both field names, the token and `=`. -/
theorem comm_core {cf cg : Char} {f₁ g₁ red : List Char} {s : Char}
    (Hcg : cg ∉ (cf :: f₁) ++ '=' :: (red ++ [s]))
    (Hcf : cf ∉ (cg :: g₁) ++ '=' :: (red ++ [s]))
    (Hsg : s ∉ cg :: g₁) (Hse : s ≠ '=') (Hsr : s ∉ red) (Hsn : s ≠ '\n')
    (Hng : '\n' ∉ cg :: g₁) (Hnr : '\n' ∉ red) :
    ∀ msg, subField (cf :: f₁) red [s] (subField (cg :: g₁) red [s] msg)
      = sim2 (cf :: f₁) (cg :: g₁) red [s] msg := by
  have hparts := notMem_parts Hcg
  have main : ∀ n msg, msg.length ≤ n →
      subField (cf :: f₁) red [s] (subField (cg :: g₁) red [s] msg)
        = sim2 (cf :: f₁) (cg :: g₁) red [s] msg := by
    intro n
    induction n with
    | zero =>
      intro msg hn
      have : msg = [] := List.length_eq_zero.mp (Nat.le_zero.mp hn)
      subst this
      rfl
    | succ n ih =>
      intro msg hn
      match msg with
      | [] => rfl
      | c :: cs =>
        simp only [List.length_cons] at hn
        cases hF : tryMatch (cf :: f₁) [s] (c :: cs) with
        | some restF =>
          obtain ⟨w, hw, hscanw⟩ := tryMatch_some_decomp hF
          obtain ⟨v, hv, hsv, hnv⟩ := scan_single_some hscanw
          have hGmsg1 : subField (cg :: g₁) red [s] (c :: cs)
              = ((cf :: f₁) ++ ['=']) ++ subField (cg :: g₁) red [s] w := by
            rw [hw, List.append_cons]
            refine subField_skip_head red [s] w ?_
            simp only [List.mem_append, List.mem_singleton]
            rintro (hm | hm)
            · exact hparts.1 hm
            · exact hparts.2.1 hm
          by_cases hGv : ∃ i, i < v.length ∧
              ((cg :: g₁) ++ ['=']).isPrefixOf ((v ++ s :: restF).drop i)
          · -- a g-occurrence sits inside the value of the f-match;
            -- both orders replace the whole co-terminal span
            have hP := Nat.find_spec hGv
            have hmin : ∀ j, j < Nat.find hGv → ¬ (j < v.length ∧
                ((cg :: g₁) ++ ['=']).isPrefixOf ((v ++ s :: restF).drop j)) :=
              fun j hj => Nat.find_min hGv hj
            have hi₀v : Nat.find hGv < v.length := hP.1
            have hdropi₀ : (v ++ s :: restF).drop (Nat.find hGv)
                = v.drop (Nat.find hGv) ++ s :: restF := by
              rw [List.drop_append_eq_append_drop,
                show Nat.find hGv - v.length = 0 by omega, List.drop_zero]
            have hgp : ((cg :: g₁) ++ ['=']) <+: v.drop (Nat.find hGv) := by
              have hpre := List.isPrefixOf_iff_prefix.mp hP.2
              rw [hdropi₀] at hpre
              refine prefix_stop hpre ?_
              simp only [List.mem_append, List.mem_singleton]
              rintro (hm | hm)
              · exact Hsg hm
              · exact Hse hm
            obtain ⟨v₂, hv₂⟩ := hgp
            obtain ⟨v₁, hv1len, hv1eq⟩ :
                ∃ v₁, v₁.length = Nat.find hGv ∧
                  v = v₁ ++ (((cg :: g₁) ++ ['=']) ++ v₂) := by
              refine ⟨v.take (Nat.find hGv), ?_, by rw [hv₂, List.take_append_drop]⟩
              rw [List.length_take]
              omega
            subst hv1eq
            have hsv₁ : s ∉ v₁ := fun hm => hsv (List.mem_append.mpr (Or.inl hm))
            have hnv₁ : '\n' ∉ v₁ := fun hm => hnv (List.mem_append.mpr (Or.inl hm))
            have hsv₂ : s ∉ v₂ := fun hm =>
              hsv (List.mem_append.mpr (Or.inr (List.mem_append.mpr (Or.inr hm))))
            have hnv₂ : '\n' ∉ v₂ := fun hm =>
              hnv (List.mem_append.mpr (Or.inr (List.mem_append.mpr (Or.inr hm))))
            have hT : ((v₁ ++ (((cg :: g₁) ++ ['=']) ++ v₂)) ++ s :: restF)
                = v₁ ++ ((cg :: g₁) ++ '=' :: (v₂ ++ s :: restF)) := by simp
            have hGw : subField (cg :: g₁) red [s] w
                = v₁ ++ ((cg :: g₁) ++ '='
                    :: (red ++ [s] ++ subField (cg :: g₁) red [s] restF)) := by
              rw [hv, hT, subField_skip _ ?_]
              · rw [subField_repl' red (scan_value restF hsv₂ hnv₂)]
              · intro i hi
                have hnopre := hmin i (by omega)
                have harg : v₁.drop i ++ ((cg :: g₁) ++ '=' :: (v₂ ++ s :: restF))
                    = ((v₁ ++ (((cg :: g₁) ++ ['=']) ++ v₂)) ++ s :: restF).drop i := by
                  rw [hT, List.drop_append_eq_append_drop,
                    show i - v₁.length = 0 by omega, List.drop_zero]
                rw [harg]
                unfold tryMatch
                rw [if_neg fun hpre => hnopre ⟨by rw [List.length_append]; omega, hpre⟩]
            have hscanF : scanToSep [s]
                (v₁ ++ ((cg :: g₁) ++ '=' :: (red ++ [s]
                  ++ subField (cg :: g₁) red [s] restF)))
                = some (subField (cg :: g₁) red [s] restF) := by
              rw [show v₁ ++ ((cg :: g₁) ++ '=' :: (red ++ [s]
                    ++ subField (cg :: g₁) red [s] restF))
                  = (v₁ ++ ((cg :: g₁) ++ ['='] ++ red))
                    ++ s :: subField (cg :: g₁) red [s] restF by simp]
              apply scan_value
              · simp only [List.mem_append, List.mem_singleton]
                rintro (hm | (hm | hm) | hm)
                · exact hsv₁ hm
                · exact Hsg hm
                · exact Hse hm
                · exact Hsr hm
              · simp only [List.mem_append, List.mem_singleton]
                rintro (hm | (hm | hm) | hm)
                · exact hnv₁ hm
                · exact Hng hm
                · exact absurd hm (by decide)
                · exact Hnr hm
            have hFG : subField (cf :: f₁) red [s] (subField (cg :: g₁) red [s] (c :: cs))
                = (cf :: f₁) ++ '=' :: (red ++ [s]
                    ++ subField (cf :: f₁) red [s] (subField (cg :: g₁) red [s] restF)) := by
              rw [hGmsg1, hGw, ← List.append_cons]
              exact subField_repl' red hscanF
            rw [hFG, sim2_f (cg :: g₁) red hF,
              ih restF (le_trans (tryMatch_length hF) (by omega))]
          · -- no g-occurrence inside the value: the f-span passes
            -- through the g-pass untouched
            push_neg at hGv
            have hGw : subField (cg :: g₁) red [s] w
                = v ++ s :: subField (cg :: g₁) red [s] restF := by
              rw [hv, show v ++ s :: restF = (v ++ [s]) ++ restF by simp,
                subField_skip restF ?_]
              · simp
              · intro i hi
                rw [List.length_append, List.length_singleton] at hi
                rcases lt_or_eq_of_le (Nat.lt_succ_iff.mp hi) with hlt | heq
                · have harg : (v ++ [s]).drop i ++ restF = (v ++ s :: restF).drop i := by
                    rw [List.drop_append_eq_append_drop, show i - v.length = 0 by omega,
                      List.drop_zero, List.drop_append_eq_append_drop,
                      show i - v.length = 0 by omega, List.drop_zero]
                    simp
                  rw [harg]
                  unfold tryMatch
                  rw [if_neg fun hpre => absurd hpre (hGv i hlt)]
                · have harg : (v ++ [s]).drop i ++ restF = s :: restF := by
                    rw [heq, List.drop_left]
                    rfl
                  rw [harg]
                  exact tryMatch_none_of_head fun hh => hparts.2.2.2 hh.symm
            have hFG : subField (cf :: f₁) red [s] (subField (cg :: g₁) red [s] (c :: cs))
                = (cf :: f₁) ++ '=' :: (red ++ [s]
                    ++ subField (cf :: f₁) red [s] (subField (cg :: g₁) red [s] restF)) := by
              rw [hGmsg1, hGw, ← List.append_cons]
              have : v ++ s :: subField (cg :: g₁) red [s] restF
                  = v ++ s :: subField (cg :: g₁) red [s] restF := rfl
              exact subField_repl' red (scan_value _ hsv hnv)
            rw [hFG, sim2_f (cg :: g₁) red hF,
              ih restF (le_trans (tryMatch_length hF) (by omega))]
        | none =>
          cases hG : tryMatch (cg :: g₁) [s] (c :: cs) with
          | some restG =>
            have hGmsg : subField (cg :: g₁) red [s] (c :: cs)
                = (cg :: g₁) ++ '=' :: (red ++ [s] ++ subField (cg :: g₁) red [s] restG) :=
              subField_repl red hG
            have hFmsg : subField (cf :: f₁) red [s] (subField (cg :: g₁) red [s] (c :: cs))
                = (cg :: g₁) ++ '=' :: (red ++ [s]
                    ++ subField (cf :: f₁) red [s] (subField (cg :: g₁) red [s] restG)) := by
              rw [hGmsg, show (cg :: g₁) ++ '=' :: (red ++ [s]
                    ++ subField (cg :: g₁) red [s] restG)
                  = ((cg :: g₁) ++ '=' :: (red ++ [s]))
                    ++ subField (cg :: g₁) red [s] restG by simp,
                subField_skip_head red [s] _ Hcf]
              simp
            rw [hFmsg, sim2_g red hF hG,
              ih restG (le_trans (tryMatch_length hG) (by omega))]
          | none =>
            have hGmsg : subField (cg :: g₁) red [s] (c :: cs)
                = c :: subField (cg :: g₁) red [s] cs := subField_keep red hG
            have hFnone := tryMatch_none_preserved Hcg Hsg Hse Hsn Hng hF
            rw [hGmsg] at hFnone
            rw [hGmsg, subField_keep red hFnone, sim2_keep red hF hG, ih cs (by omega)]
  intro msg
  exact main msg.length msg le_rfl

/-! ### Claim theorems -/

/-- C5: the empty field list is the identity: for every redaction token,
message and separator, `filter_datum [] token msg sep = msg`. -/
theorem filter_datum_nil_fields (red msg sep : List Char) :
    filter_datum [] red msg sep = msg := rfl

/-- C6: single-field redaction example:
`filter_datum ["password"] "XXX" "name=Bob password=secret " " "`
returns exactly `"name=Bob password=XXX "`. -/
theorem filter_datum_password_example :
    filter_datum [strL "password"] (strL "XXX") (strL "name=Bob password=secret ") (strL " ")
      = strL "name=Bob password=XXX " := by decide

/-- C7: non-target fields untouched:
`filter_datum ["ssn"] "XXX" "user=alice ssn=123-45-6789 " " "` returns
exactly `"user=alice ssn=XXX "`; the `user=alice` segment is unchanged. -/
theorem filter_datum_ssn_example :
    filter_datum [strL "ssn"] (strL "XXX") (strL "user=alice ssn=123-45-6789 ") (strL " ")
      = strL "user=alice ssn=XXX " := by decide

/-- C10: the field pattern is not anchored to the start of a key: with
field list `["name"]`, the key `username` (not listed) has its value
redacted, because `name=` occurs as a substring of `username=`:
`filter_datum ["name"] "XXX" "username=alice id=2 " " "` returns
`"username=XXX id=2 "`. -/
theorem filter_datum_unanchored_example :
    filter_datum [strL "name"] (strL "XXX") (strL "username=alice id=2 ") (strL " ")
      = strL "username=XXX id=2 " := by decide

/-- C1 counterexample: the claim states the output is the input in which
every substring matching `f=<shortest-run>separator`, for every listed
field `f`, is replaced by `f=<token><separator>` and nothing else is
altered.  On input `"a=b=1 2 "` with fields `["a","b"]`, token `"XXX"`
and separator `" "`, the input contains the b-match `b=1 ` (second and
third conjuncts: an explicit decomposition with a newline-free value),
so the claimed output must contain `b=XXX`; the actual output is
`"a=XXX 2 "`, which contains no occurrence of `b=XXX` (the substitution
for the earlier field `a` consumed the b-match). -/
theorem filter_datum_input_match_cex :
    filter_datum [strL "a", strL "b"] (strL "XXX") (strL "a=b=1 2 ") (strL " ")
        = strL "a=XXX 2 " ∧
      strL "a=b=1 2 " = strL "a=" ++ strL "b" ++ '=' :: (strL "1" ++ strL " " ++ strL "2 ") ∧
      ('\n' ∉ strL "1") ∧
      ¬ (strL "b=XXX" <:+: strL "a=XXX 2 ") := by decide

/-- C1 (amended): `filter_datum` redacts sequentially, one field at a
time in list order; for each field, every left-to-right non-overlapping
shortest match found in the current — already partially redacted —
string (not the original input) is replaced by
`field=<token><separator>`, and no other part of the current string is
altered.  `SeqRedact` chains the declarative single-field specification
`RedactRel` over the field list. -/
theorem filter_datum_sequential_spec (fields : List (List Char)) (red sep : List Char) :
    ∀ msg, SeqRedact red sep fields msg (filter_datum fields red msg sep) := by
  induction fields with
  | nil =>
    intro msg
    exact .nil msg
  | cons f fs ih =>
    intro msg
    rw [filter_datum_nil_cons]
    exact .cons f fs msg _ _ (subField_redactRel f red sep msg) (ih _)

/-- C4: order independence of the result: for every input message,
`filter_datum` with fields `["name","password"]`, token `"XXX"` and
separator `" "` returns the same string as with fields
`["password","name"]` — both orders compute the simultaneous two-field
redaction. -/
theorem filter_datum_order_independent (msg : List Char) :
    filter_datum [strL "name", strL "password"] (strL "XXX") msg (strL " ")
      = filter_datum [strL "password", strL "name"] (strL "XXX") msg (strL " ") := by
  have hsp : strL " " = [' '] := by decide
  have hnm : strL "name" = 'n' :: strL "ame" := by decide
  have hpw : strL "password" = 'p' :: strL "assword" := by decide
  have h1 : filter_datum [strL "name", strL "password"] (strL "XXX") msg (strL " ")
      = subField (strL "password") (strL "XXX") (strL " ")
          (subField (strL "name") (strL "XXX") (strL " ") msg) := rfl
  have h2 : filter_datum [strL "password", strL "name"] (strL "XXX") msg (strL " ")
      = subField (strL "name") (strL "XXX") (strL " ")
          (subField (strL "password") (strL "XXX") (strL " ") msg) := rfl
  rw [h1, h2, hsp, hnm, hpw]
  rw [@comm_core 'p' 'n' (strL "assword") (strL "ame") (strL "XXX") ' '
      (by decide) (by decide) (by decide) (by decide) (by decide) (by decide)
      (by decide) (by decide) msg,
    @comm_core 'n' 'p' (strL "ame") (strL "assword") (strL "XXX") ' '
      (by decide) (by decide) (by decide) (by decide) (by decide) (by decide)
      (by decide) (by decide) msg]
  exact sim2_comm (strL "assword") (strL "ame") (strL "XXX") [' '] (by decide) msg

/-- C2: lazy, left-to-right, non-crossing matching: a `filter_datum` pass
for one field replaces exactly the left-to-right, non-overlapping matches
`field=value separator` in which the value is the shortest newline-free
run reaching a separator (`hmin` in `RedactRel.repl`); minimality entails
that the value span never contains the separator, so no substitution
extends across a separator boundary or swallows a following
`field=value separator` segment. -/
theorem filter_datum_lazy_matches (f red sep msg : List Char) :
    RedactRel f red sep msg (filter_datum [f] red msg sep) :=
  subField_redactRel f red sep msg

/-- C3: no-trailing-separator boundary: with a single-character separator
`s`, a separator-free tail `t` of the message — in particular a final
`field=value` segment not followed by the separator — passes through
`filter_datum` verbatim, for every field list and token. -/
theorem filter_datum_no_trailing_sep (fields : List (List Char)) (red : List Char)
    (u t : List Char) (s : Char) (h : s ∉ t) :
    filter_datum fields red (u ++ t) [s] = filter_datum fields red u [s] ++ t :=
  filter_datum_append red h fields u

/-- Witness for the C3 theorem at the spec's concrete example: `' '` does
not occur in the tail `"email=a@b.com"`, and
`filter_datum ["email"] "XXX" "id=1 email=a@b.com" " "` returns the
message unchanged — the email value is left unredacted. -/
theorem filter_datum_no_trailing_sep_witness :
    (' ' ∉ strL "email=a@b.com") ∧
      filter_datum [strL "email"] (strL "XXX") (strL "id=1 email=a@b.com") (strL " ")
        = strL "id=1 email=a@b.com" := by
  refine ⟨by decide, ?_⟩
  have h := filter_datum_no_trailing_sep [strL "email"] (strL "XXX")
    (strL "id=1 ") (strL "email=a@b.com") ' ' (by decide)
  have h2 : strL "id=1 " ++ strL "email=a@b.com" = strL "id=1 email=a@b.com" := by decide
  have h3 : filter_datum [strL "email"] (strL "XXX") (strL "id=1 ") [' '] = strL "id=1 " := by
    decide
  have h4 : strL " " = [' '] := by decide
  rw [h2, h3] at h
  rw [h4, h, h2]

/-- C9: purity and totality: in this embedding `filter_datum` is a total
pure function — it always returns a string, with no effects to model —
and it is deterministic: two calls with equal field list, token, message
and separator return equal strings. -/
theorem filter_datum_deterministic (fields fields' : List (List Char))
    (red red' msg msg' sep sep' : List Char) (h1 : fields = fields') (h2 : red = red')
    (h3 : msg = msg') (h4 : sep = sep') :
    (∃ out, filter_datum fields red msg sep = out) ∧
      filter_datum fields red msg sep = filter_datum fields' red' msg' sep' := by
  subst h1
  subst h2
  subst h3
  subst h4
  exact ⟨⟨_, rfl⟩, rfl⟩

/-- Witness for the C9 theorem at concrete arguments. -/
theorem filter_datum_deterministic_witness :
    (∃ out, filter_datum [strL "name"] (strL "XXX") (strL "name=a ") (strL " ") = out) ∧
      filter_datum [strL "name"] (strL "XXX") (strL "name=a ") (strL " ")
        = filter_datum [strL "name"] (strL "XXX") (strL "name=a ") (strL " ") :=
  filter_datum_deterministic _ _ _ _ _ _ _ _ rfl rfl rfl rfl

/-- C8 counterexample: for a record rendered as
`"name=Bob password=hunter2 "` and formatter fields
`["name","password"]`, `RedactingFormatter.format` does not return
`"name=Bob password=XXX "` as claimed: since `name` is itself in the
field set, its value is redacted too, and the actual result is
`"name=XXX password=XXX "`. -/
theorem format_example_cex :
    RedactingFormatter.format [strL "name", strL "password"]
        (strL "name=Bob password=hunter2 ") ≠ strL "name=Bob password=XXX " ∧
      RedactingFormatter.format [strL "name", strL "password"]
        (strL "name=Bob password=hunter2 ") = strL "name=XXX password=XXX " := by decide

/-- C8 (amended): `RedactingFormatter.format` first renders the record
via the base formatting collaborator (the record is modelled by its
rendered string) and then applies `filter_datum` with the formatter's
field set, token `"XXX"` and separator `" "`; on the example record with
fields containing `name` and `password`, both listed values are redacted:
the result is `"name=XXX password=XXX "`. -/
theorem format_redacts_rendered :
    (∀ (fields : List (List Char)) (record : List Char),
        RedactingFormatter.format fields record
          = filter_datum fields (strL "XXX") record (strL " ")) ∧
      RedactingFormatter.format [strL "name", strL "password"]
        (strL "name=Bob password=hunter2 ") = strL "name=XXX password=XXX " :=
  ⟨fun _ _ => rfl, by decide⟩

end FilteredLogger
